import Mathlib

/-!
Shallow embedding of `sailing_robot/gps_utils.py`: the outbound UBX codec
(`UBXMessage.serialise`, `ubx_checksum`) and the inbound stream demultiplexer
(`UbxNmeaParser`).  Python byte strings are modelled as `List Nat` (each
element a byte value); the parser's only state is its buffer `self.buf`, so
its methods become pure functions from a buffer to a result and a new buffer.
`NMEASentence.parse` belongs to the external `pynmea2` library and is modelled
as the opaque tag `ParsedMsg.nmea` holding the raw bytes handed to it.
-/

/-- `struct.pack('<H', n)`: the little-endian 16-bit encoding of `n`
(the source only calls it for values that fit in 16 bits; Python raises
for larger values, which the claims exclude by hypothesis). -/
def packLE16 (n : Nat) : List Nat := [n % 256, n / 256]

/-- The loop of `ubx_checksum`: `a = (a + c) & 0xff; b = (b + a) & 0xff`
over the bytes of the message, threading both accumulators. -/
def ubx_checksum_loop : List Nat → Nat → Nat → Nat × Nat
  | [], a, b => (a, b)
  | c :: rest, a, b =>
      ubx_checksum_loop rest ((a + c) % 256) ((b + (a + c) % 256) % 256)

/-- `ubx_checksum(msg)` from the source: run the two-accumulator loop from
`(0, 0)` and return `struct.pack('BB', a, b)`, i.e. the two bytes `[a, b]`. -/
def ubx_checksum (msg : List Nat) : List Nat :=
  ((ubx_checksum_loop msg 0 0).1) :: [(ubx_checksum_loop msg 0 0).2]

/-- `UBXMessage.__init__`: a message id (two bytes in practice) and a payload. -/
structure UBXMessage where
  msg_id : List Nat
  payload : List Nat

/-- `UBXMessage.serialise` from the source:
`b'\xB5\x62' + msg_body + checksum + b'\x10\x13'` with
`msg_body = msg_id + struct.pack('<H', len(payload)) + payload`. -/
def UBXMessage.serialise (m : UBXMessage) : List Nat :=
  [0xB5, 0x62] ++ (m.msg_id ++ packLE16 m.payload.length ++ m.payload)
    ++ ubx_checksum (m.msg_id ++ packLE16 m.payload.length ++ m.payload)
    ++ [0x10, 0x13]

/-- The value `_next_msg` hands back to the caller: either the decoded NMEA
sentence produced by the external `NMEASentence.parse` on the extracted raw
bytes (`nmea`), or a bare Python byte string (`bin`) — the source returns a
raw UBX frame and a skipped noise span alike as plain `bytes`. -/
inductive ParsedMsg where
  | nmea (raw : List Nat)
  | bin (raw : List Nat)
deriving DecidableEq

/-- `bytes.find(t)` for a one-byte needle, as an optional lowest index
(`none` models Python's `-1`). -/
def findByteIdx (t : Nat) : List Nat → Option Nat
  | [] => none
  | c :: rest => if c = t then some 0 else (findByteIdx t rest).map (· + 1)

/-- `bytes.find(t1 t2)` for a two-byte needle (`b'\xb5b'`, `b'\r\n'`),
as an optional lowest index; a trailing lone first byte is not a match. -/
def findPairIdx (t1 t2 : Nat) : List Nat → Option Nat
  | [] => none
  | [_] => none
  | c1 :: c2 :: rest =>
      if c1 = t1 ∧ c2 = t2 then some 0
      else (findPairIdx t1 t2 (c2 :: rest)).map (· + 1)

/-- `_take_chunk(n)`: `c, self.buf = self.buf[:n], self.buf[n:]; return c`. -/
def take_chunk (n : Nat) (buf : List Nat) : List Nat × List Nat :=
  (buf.take n, buf.drop n)

/-- `_take_nmea`: find `b'\r\n'`; if absent return `None` leaving the buffer,
else take the first `crlf_ix + 2` bytes and hand them to `NMEASentence.parse`. -/
def take_nmea (buf : List Nat) : Option ParsedMsg × List Nat :=
  match findPairIdx 0x0D 0x0A buf with
  | none => (none, buf)
  | some crlf_ix =>
      (some (ParsedMsg.nmea (take_chunk (crlf_ix + 2) buf).1),
       (take_chunk (crlf_ix + 2) buf).2)

/-- `_take_ubx`: with fewer than 6 bytes return `None`; else read the payload
length little-endian from bytes 4-5 and, when `payload_length + 8` bytes are
buffered, take exactly that many; otherwise fall through to `None`. -/
def take_ubx (buf : List Nat) : Option ParsedMsg × List Nat :=
  if buf.length < 6 then (none, buf)
  else
    if buf.getD 4 0 + 256 * buf.getD 5 0 + 8 ≤ buf.length then
      (some (ParsedMsg.bin (take_chunk (buf.getD 4 0 + 256 * buf.getD 5 0 + 8) buf).1),
       (take_chunk (buf.getD 4 0 + 256 * buf.getD 5 0 + 8) buf).2)
    else (none, buf)

/-- `_next_msg`: locate both markers, then branch exactly as the source does;
note the three skip branches `return self._take_chunk(...)` hand the skipped
span back as a value (they do not recurse). -/
def next_msg (buf : List Nat) : Option ParsedMsg × List Nat :=
  if findByteIdx 0x24 buf = some 0 then take_nmea buf
  else if findPairIdx 0xB5 0x62 buf = some 0 then take_ubx buf
  else
    match findByteIdx 0x24 buf, findPairIdx 0xB5 0x62 buf with
    | some nmea_start, some ubx_start =>
        (some (ParsedMsg.bin (take_chunk (min nmea_start ubx_start) buf).1),
         (take_chunk (min nmea_start ubx_start) buf).2)
    | some nmea_start, none =>
        (some (ParsedMsg.bin (take_chunk nmea_start buf).1),
         (take_chunk nmea_start buf).2)
    | none, some ubx_start =>
        (some (ParsedMsg.bin (take_chunk ubx_start buf).1),
         (take_chunk ubx_start buf).2)
    | none, none => (none, buf)

/-- `feed(data)`: `self.buf += data`. -/
def feed (buf data : List Nat) : List Nat := buf ++ data

/-- Draining `iter(self._next_msg, None)` with explicit fuel: call `_next_msg`
until it returns `None`, collecting the yielded units and the final buffer. -/
def get_msgs_fuel : Nat → List Nat → List ParsedMsg × List Nat
  | 0, buf => ([], buf)
  | fuel + 1, buf =>
      match next_msg buf with
      | (none, b) => ([], b)
      | (some m, b) =>
          ((m :: (get_msgs_fuel fuel b).1), (get_msgs_fuel fuel b).2)

/-- `get_msgs()` drained to exhaustion: fuel `buf.length` is sufficient since
every yielded unit consumes at least one buffered byte
(`get_msgs_fuel_complete` below). -/
def get_msgs (buf : List Nat) : List ParsedMsg × List Nat :=
  get_msgs_fuel buf.length buf

/-! ### Basic facts about the marker searches and the extraction steps -/

theorem findByteIdx_some_lt {t : Nat} : ∀ {l : List Nat} {i : Nat},
    findByteIdx t l = some i → i < l.length := by
  intro l
  induction l with
  | nil => intro i h; simp [findByteIdx] at h
  | cons c rest ih =>
      intro i h
      simp only [findByteIdx] at h
      by_cases hc : c = t
      · rw [if_pos hc] at h
        simp at h
        simp only [List.length_cons]
        omega
      · rw [if_neg hc] at h
        rcases Option.map_eq_some'.mp h with ⟨j, hj, hij⟩
        have := ih hj
        simp only [List.length_cons]
        omega

theorem findPairIdx_some_le {t1 t2 : Nat} : ∀ {l : List Nat} {i : Nat},
    findPairIdx t1 t2 l = some i → i + 2 ≤ l.length := by
  intro l
  induction l with
  | nil => intro i h; simp [findPairIdx] at h
  | cons c rest ih =>
      intro i h
      cases rest with
      | nil => simp [findPairIdx] at h
      | cons c2 r =>
          simp only [findPairIdx] at h
          by_cases hc : c = t1 ∧ c2 = t2
          · rw [if_pos hc] at h
            simp at h
            simp only [List.length_cons]
            omega
          · rw [if_neg hc] at h
            rcases Option.map_eq_some'.mp h with ⟨j, hj, hij⟩
            have := ih hj
            simp only [List.length_cons] at this ⊢
            omega

theorem findPairIdx_zero_shape {t1 t2 : Nat} {l : List Nat}
    (h : findPairIdx t1 t2 l = some 0) : ∃ r, l = t1 :: t2 :: r := by
  cases l with
  | nil => simp [findPairIdx] at h
  | cons c rest =>
      cases rest with
      | nil => simp [findPairIdx] at h
      | cons c2 r =>
          simp only [findPairIdx] at h
          by_cases hc : c = t1 ∧ c2 = t2
          · exact ⟨r, by rw [hc.1, hc.2]⟩
          · rw [if_neg hc] at h
            rcases Option.map_eq_some'.mp h with ⟨j, _, hij⟩
            omega

theorem ubx_marker_head_ne_nmea {buf : List Nat}
    (h : findPairIdx 0xB5 0x62 buf = some 0) :
    findByteIdx 0x24 buf ≠ some 0 := by
  rcases findPairIdx_zero_shape h with ⟨r, rfl⟩
  simp only [findByteIdx]
  rw [if_neg (by omega : ¬ (0xB5 : Nat) = 0x24)]
  intro hc
  rcases Option.map_eq_some'.mp hc with ⟨j, _, hij⟩
  omega

theorem ubx_checksum_length (msg : List Nat) : (ubx_checksum msg).length = 2 := by
  simp [ubx_checksum]

theorem packLE16_length (n : Nat) : (packLE16 n).length = 2 := by
  simp [packLE16]

/-- Branch equation: NMEA marker at offset 0 selects `_take_nmea`. -/
theorem next_msg_nmea0 {buf : List Nat} (h : findByteIdx 0x24 buf = some 0) :
    next_msg buf = take_nmea buf := by
  simp [next_msg, h]

/-- Branch equation: UBX marker at offset 0 (the NMEA marker then cannot be
at offset 0, the first byte being `0xB5`) selects `_take_ubx`. -/
theorem next_msg_ubx0 {buf : List Nat} (h : findPairIdx 0xB5 0x62 buf = some 0) :
    next_msg buf = take_ubx buf := by
  have hn := ubx_marker_head_ne_nmea h
  simp [next_msg, h, hn]

/-- Branch equation: both markers strictly inside the buffer. -/
theorem next_msg_skip_both {buf : List Nat} {n u : Nat}
    (hn : findByteIdx 0x24 buf = some n) (hu : findPairIdx 0xB5 0x62 buf = some u)
    (hn0 : 0 < n) (hu0 : 0 < u) :
    next_msg buf = (some (ParsedMsg.bin (buf.take (min n u))), buf.drop (min n u)) := by
  have h1 : ¬ findByteIdx 0x24 buf = some 0 := by rw [hn]; simp; omega
  have h2 : ¬ findPairIdx 0xB5 0x62 buf = some 0 := by rw [hu]; simp; omega
  unfold next_msg
  rw [if_neg h1, if_neg h2, hn, hu]
  simp [take_chunk]

/-- Branch equation: only the NMEA marker occurs, strictly inside. -/
theorem next_msg_skip_nmea {buf : List Nat} {n : Nat}
    (hn : findByteIdx 0x24 buf = some n) (hu : findPairIdx 0xB5 0x62 buf = none)
    (hn0 : 0 < n) :
    next_msg buf = (some (ParsedMsg.bin (buf.take n)), buf.drop n) := by
  have h1 : ¬ findByteIdx 0x24 buf = some 0 := by rw [hn]; simp; omega
  have h2 : ¬ findPairIdx 0xB5 0x62 buf = some 0 := by rw [hu]; simp
  unfold next_msg
  rw [if_neg h1, if_neg h2, hn, hu]
  simp [take_chunk]

/-- Branch equation: only the UBX marker occurs, strictly inside. -/
theorem next_msg_skip_ubx {buf : List Nat} {u : Nat}
    (hn : findByteIdx 0x24 buf = none) (hu : findPairIdx 0xB5 0x62 buf = some u)
    (hu0 : 0 < u) :
    next_msg buf = (some (ParsedMsg.bin (buf.take u)), buf.drop u) := by
  have h1 : ¬ findByteIdx 0x24 buf = some 0 := by rw [hn]; simp
  have h2 : ¬ findPairIdx 0xB5 0x62 buf = some 0 := by rw [hu]; simp; omega
  unfold next_msg
  rw [if_neg h1, if_neg h2, hn, hu]
  simp [take_chunk]

/-- Branch equation: no marker anywhere. -/
theorem next_msg_no_marker {buf : List Nat}
    (hn : findByteIdx 0x24 buf = none) (hu : findPairIdx 0xB5 0x62 buf = none) :
    next_msg buf = (none, buf) := by
  simp [next_msg, hn, hu]

/-- Inversion: whenever `_next_msg` yields a unit, some positive number `k`
of bytes (at most the whole buffer) has been removed from the front, the new
buffer is the corresponding suffix, and the unit is built from exactly the
removed front bytes. -/
theorem next_msg_some_inv {buf : List Nat} {m : ParsedMsg} {b : List Nat}
    (h : next_msg buf = (some m, b)) :
    ∃ k, 0 < k ∧ k ≤ buf.length ∧ b = buf.drop k ∧
      (m = ParsedMsg.nmea (buf.take k) ∨ m = ParsedMsg.bin (buf.take k)) := by
  by_cases hn0 : findByteIdx 0x24 buf = some 0
  · rw [next_msg_nmea0 hn0] at h
    unfold take_nmea at h
    cases hc : findPairIdx 0x0D 0x0A buf with
    | none => rw [hc] at h; simp at h
    | some i =>
        rw [hc] at h
        have hle := findPairIdx_some_le hc
        simp only [take_chunk, Prod.mk.injEq, Option.some.injEq] at h
        exact ⟨i + 2, by omega, by omega, h.2.symm, Or.inl h.1.symm⟩
  · by_cases hu0 : findPairIdx 0xB5 0x62 buf = some 0
    · rw [next_msg_ubx0 hu0] at h
      unfold take_ubx at h
      by_cases hlen : buf.length < 6
      · rw [if_pos hlen] at h; simp at h
      · rw [if_neg hlen] at h
        by_cases hfit : buf.getD 4 0 + 256 * buf.getD 5 0 + 8 ≤ buf.length
        · rw [if_pos hfit] at h
          simp only [take_chunk, Prod.mk.injEq, Option.some.injEq] at h
          exact ⟨buf.getD 4 0 + 256 * buf.getD 5 0 + 8, by omega, hfit,
            h.2.symm, Or.inr h.1.symm⟩
        · rw [if_neg hfit] at h; simp at h
    · cases hn : findByteIdx 0x24 buf with
      | some n =>
          have hnpos : 0 < n := by
            rcases Nat.eq_zero_or_pos n with h0 | h0
            · exact absurd (h0 ▸ hn) hn0
            · exact h0
          have hnlt := findByteIdx_some_lt hn
          cases hu : findPairIdx 0xB5 0x62 buf with
          | some u =>
              have hupos : 0 < u := by
                rcases Nat.eq_zero_or_pos u with h0 | h0
                · exact absurd (h0 ▸ hu) hu0
                · exact h0
              rw [next_msg_skip_both hn hu hnpos hupos] at h
              simp only [Prod.mk.injEq, Option.some.injEq] at h
              refine ⟨min n u, by omega, by omega, h.2.symm, Or.inr h.1.symm⟩
          | none =>
              rw [next_msg_skip_nmea hn hu hnpos] at h
              simp only [Prod.mk.injEq, Option.some.injEq] at h
              exact ⟨n, hnpos, by omega, h.2.symm, Or.inr h.1.symm⟩
      | none =>
          cases hu : findPairIdx 0xB5 0x62 buf with
          | some u =>
              have hupos : 0 < u := by
                rcases Nat.eq_zero_or_pos u with h0 | h0
                · exact absurd (h0 ▸ hu) hu0
                · exact h0
              have hult := findPairIdx_some_le hu
              rw [next_msg_skip_ubx hn hu hupos] at h
              simp only [Prod.mk.injEq, Option.some.injEq] at h
              exact ⟨u, hupos, by omega, h.2.symm, Or.inr h.1.symm⟩
          | none =>
              rw [next_msg_no_marker hn hu] at h
              simp at h

/-- A yielded unit strictly shrinks the buffer. -/
theorem next_msg_some_lt {buf : List Nat} {m : ParsedMsg} {b : List Nat}
    (h : next_msg buf = (some m, b)) : b.length < buf.length := by
  rcases next_msg_some_inv h with ⟨k, hk0, hkle, hb, -⟩
  subst hb
  simp only [List.length_drop]
  omega

/-- A "not ready" report leaves the buffer exactly unchanged. -/
theorem next_msg_fst_none {buf : List Nat}
    (h : (next_msg buf).1 = none) : (next_msg buf).2 = buf := by
  by_cases hn0 : findByteIdx 0x24 buf = some 0
  · rw [next_msg_nmea0 hn0] at h ⊢
    unfold take_nmea at h ⊢
    cases hc : findPairIdx 0x0D 0x0A buf with
    | none => simp [hc]
    | some i => rw [hc] at h; simp at h
  · by_cases hu0 : findPairIdx 0xB5 0x62 buf = some 0
    · rw [next_msg_ubx0 hu0] at h ⊢
      unfold take_ubx at h ⊢
      by_cases hlen : buf.length < 6
      · rw [if_pos hlen]
      · rw [if_neg hlen] at h ⊢
        by_cases hfit : buf.getD 4 0 + 256 * buf.getD 5 0 + 8 ≤ buf.length
        · rw [if_pos hfit] at h; simp at h
        · rw [if_neg hfit]
    · cases hn : findByteIdx 0x24 buf with
      | some n =>
          have hnpos : 0 < n := by
            rcases Nat.eq_zero_or_pos n with h0 | h0
            · exact absurd (h0 ▸ hn) hn0
            · exact h0
          cases hu : findPairIdx 0xB5 0x62 buf with
          | some u =>
              have hupos : 0 < u := by
                rcases Nat.eq_zero_or_pos u with h0 | h0
                · exact absurd (h0 ▸ hu) hu0
                · exact h0
              rw [next_msg_skip_both hn hu hnpos hupos] at h
              simp at h
          | none =>
              rw [next_msg_skip_nmea hn hu hnpos] at h
              simp at h
      | none =>
          cases hu : findPairIdx 0xB5 0x62 buf with
          | some u =>
              have hupos : 0 < u := by
                rcases Nat.eq_zero_or_pos u with h0 | h0
                · exact absurd (h0 ▸ hu) hu0
                · exact h0
              rw [next_msg_skip_ubx hn hu hupos] at h
              simp at h
          | none =>
              rw [next_msg_no_marker hn hu]

/-- If `_next_msg` is already "not ready", draining yields nothing and keeps
the buffer, whatever the fuel. -/
theorem get_msgs_fuel_none {buf : List Nat} (h : (next_msg buf).1 = none) :
    ∀ fuel, get_msgs_fuel fuel buf = ([], buf) := by
  intro fuel
  cases fuel with
  | zero => rfl
  | succ f =>
      have hbuf : next_msg buf = (none, buf) := by
        have h2 := next_msg_fst_none h
        rw [Prod.ext_iff]
        exact ⟨h, h2⟩
      simp only [get_msgs_fuel, hbuf]

theorem next_msg_nil : next_msg ([] : List Nat) = (none, []) := by decide

theorem get_msgs_fuel_nil : ∀ fuel, get_msgs_fuel fuel [] = ([], []) :=
  get_msgs_fuel_none (by rw [next_msg_nil])

/-- Unfolding one drain step when a unit is yielded. -/
theorem get_msgs_step {buf b : List Nat} {m : ParsedMsg}
    (h : next_msg buf = (some m, b)) :
    get_msgs buf = (m :: (get_msgs_fuel (buf.length - 1) b).1,
      (get_msgs_fuel (buf.length - 1) b).2) := by
  have hpos : 0 < buf.length := by
    rcases buf with - | ⟨c, t⟩
    · rw [next_msg_nil] at h; simp at h
    · simp
  unfold get_msgs
  rcases Nat.exists_eq_add_of_lt hpos with ⟨l, hl⟩
  rw [hl]
  simp only [Nat.zero_add, get_msgs_fuel, h]
  have : l = buf.length - 1 := by omega
  rw [this]
  simp

/-- If one unit is yielded and the remaining buffer is "not ready", draining
yields exactly that unit. -/
theorem get_msgs_single {buf b : List Nat} {m : ParsedMsg}
    (h : next_msg buf = (some m, b)) (h2 : (next_msg b).1 = none) :
    get_msgs buf = ([m], b) := by
  rw [get_msgs_step h, get_msgs_fuel_none h2]

/-- The first drained unit is the unit `_next_msg` yields. -/
theorem get_msgs_head {buf b : List Nat} {m : ParsedMsg}
    (h : next_msg buf = (some m, b)) :
    (get_msgs buf).1.head? = some m := by
  rw [get_msgs_step h]
  rfl

/-- Fuel `buf.length` always suffices: after draining, `_next_msg` on the
final buffer reports "not ready". -/
theorem get_msgs_fuel_complete :
    ∀ (fuel : Nat) (buf : List Nat), buf.length ≤ fuel →
      (next_msg (get_msgs_fuel fuel buf).2).1 = none := by
  intro fuel
  induction fuel with
  | zero =>
      intro buf hle
      have : buf = [] := List.length_eq_zero.mp (Nat.le_zero.mp hle)
      subst this
      simp only [get_msgs_fuel, next_msg_nil]
  | succ f ih =>
      intro buf hle
      cases hm : next_msg buf with
      | mk o b =>
          cases o with
          | none =>
              simp only [get_msgs_fuel, hm]
              have h1 : (next_msg buf).1 = none := by rw [hm]
              have h2 := next_msg_fst_none h1
              rw [hm] at h2
              simp only at h2
              rw [h2]
              exact h1
          | some m =>
              simp only [get_msgs_fuel, hm]
              have hlt := next_msg_some_lt hm
              exact ih b (by omega)

/-- Each drained unit consumed at least one byte, so the number of units is
bounded by the buffer length. -/
theorem get_msgs_fuel_count :
    ∀ (fuel : Nat) (buf : List Nat), (get_msgs_fuel fuel buf).1.length ≤ buf.length := by
  intro fuel
  induction fuel with
  | zero => intro buf; simp [get_msgs_fuel]
  | succ f ih =>
      intro buf
      cases hm : next_msg buf with
      | mk o b =>
          cases o with
          | none => simp [get_msgs_fuel, hm]
          | some m =>
              simp only [get_msgs_fuel, hm, List.length_cons]
              have hlt := next_msg_some_lt hm
              have := ih b
              omega

/-! ### Reference definitions written from the spec's words -/

/-- One step of the spec's checksum algorithm: `a = (a + c) mod 256` then
`b = (b + a) mod 256`, on the state `(a, b)`. -/
def csum_step (ab : Nat × Nat) (c : Nat) : Nat × Nat :=
  ((ab.1 + c) % 256, (ab.2 + (ab.1 + c) % 256) % 256)

/-- The checksum exactly as the spec words it: start from `a = 0, b = 0`,
fold `csum_step` over the bytes left to right, return the two bytes `(a, b)`
in that order. -/
def ubx_checksum_ref (msg : List Nat) : List Nat :=
  [(msg.foldl csum_step (0, 0)).1, (msg.foldl csum_step (0, 0)).2]

theorem ubx_checksum_loop_eq_foldl :
    ∀ (msg : List Nat) (a b : Nat),
      ubx_checksum_loop msg a b = msg.foldl csum_step (a, b) := by
  intro msg
  induction msg with
  | nil => intro a b; rfl
  | cons c rest ih =>
      intro a b
      simp only [ubx_checksum_loop, List.foldl_cons, csum_step, ih]

/-- Case analysis of a detection call when the UBX marker is at offset 0. -/
theorem next_msg_ubx0_cases (buf : List Nat)
    (h : findPairIdx 0xB5 0x62 buf = some 0) :
    (buf.length < 6 → next_msg buf = (none, buf)) ∧
    (6 ≤ buf.length →
      (buf.getD 4 0 + 256 * buf.getD 5 0 + 8 ≤ buf.length →
        next_msg buf
          = (some (ParsedMsg.bin (buf.take (buf.getD 4 0 + 256 * buf.getD 5 0 + 8))),
             buf.drop (buf.getD 4 0 + 256 * buf.getD 5 0 + 8))) ∧
      (buf.length < buf.getD 4 0 + 256 * buf.getD 5 0 + 8 →
        next_msg buf = (none, buf))) := by
  rw [next_msg_ubx0 h]
  unfold take_ubx
  refine ⟨?_, fun h6 => ⟨?_, ?_⟩⟩
  · intro hlt
    rw [if_pos hlt]
  · intro hfit
    rw [if_neg (by omega), if_pos hfit]
    simp [take_chunk]
  · intro hshort
    rw [if_neg (by omega), if_neg (by omega)]

/-! ### The claims -/

/-- C2: for every byte sequence `msg`, `ubx_checksum msg` agrees with the
spec's reference algorithm — `a = 0, b = 0`, then for each byte `c` left to
right `a = (a + c) mod 256; b = (b + a) mod 256`, returning the two bytes
`(a, b)` in that order. -/
theorem ubx_checksum_correct (msg : List Nat) :
    ubx_checksum msg = ubx_checksum_ref msg := by
  simp only [ubx_checksum, ubx_checksum_ref, ubx_checksum_loop_eq_foldl]

/-- C3: for a `UBXMessage` with a two-byte `msg_id` and a payload of at most
65535 bytes, `serialise` is exactly the sync bytes, the body
`msg_id ++ length-LE16 ++ payload`, the checksum of that body, and the
trailing marker `0x10 0x13`; bytes 4-5 decode little-endian to the payload
length and the total length is payload length + 10. -/
theorem serialise_correct (m : UBXMessage)
    (h1 : m.msg_id.length = 2) (_h2 : m.payload.length ≤ 65535) :
    m.serialise = [0xB5, 0x62]
        ++ (m.msg_id ++ packLE16 m.payload.length ++ m.payload)
        ++ ubx_checksum (m.msg_id ++ packLE16 m.payload.length ++ m.payload)
        ++ [0x10, 0x13]
      ∧ m.serialise.getD 4 0 + 256 * m.serialise.getD 5 0 = m.payload.length
      ∧ m.serialise.length = m.payload.length + 10 := by
  rcases List.length_eq_two.mp h1 with ⟨a, b, hab⟩
  refine ⟨rfl, ?_, ?_⟩
  · simp only [UBXMessage.serialise, hab, packLE16, List.cons_append,
      List.nil_append, List.append_assoc]
    simp only [List.getD_cons_succ, List.getD_cons_zero]
    exact Nat.mod_add_div m.payload.length 256
  · simp only [UBXMessage.serialise, List.length_append, List.length_cons,
      List.length_nil, ubx_checksum_length, packLE16_length]
    omega

/-- Witness for C3 at the spec's round-trip example
`UbxMessage(msg_id = 06 01, payload = AB CD)`. -/
theorem serialise_correct_witness :
    (UBXMessage.serialise ⟨[0x06, 0x01], [0xAB, 0xCD]⟩).length
      = ([0xAB, 0xCD] : List Nat).length + 10 :=
  (serialise_correct ⟨[0x06, 0x01], [0xAB, 0xCD]⟩ (by decide) (by decide)).2.2

/-- C4: with the UBX marker at buffer offset 0 — fewer than 6 bytes means no
unit and an untouched buffer; otherwise, with the payload length read
little-endian from offsets 4-5, at least `length + 8` buffered bytes means
exactly `length + 8` bytes are removed and returned as one opaque frame, and
fewer means no unit. -/
theorem take_ubx_framing (buf : List Nat)
    (h : findPairIdx 0xB5 0x62 buf = some 0) :
    (buf.length < 6 → next_msg buf = (none, buf)) ∧
    (6 ≤ buf.length →
      (buf.getD 4 0 + 256 * buf.getD 5 0 + 8 ≤ buf.length →
        next_msg buf
          = (some (ParsedMsg.bin (buf.take (buf.getD 4 0 + 256 * buf.getD 5 0 + 8))),
             buf.drop (buf.getD 4 0 + 256 * buf.getD 5 0 + 8))) ∧
      (buf.length < buf.getD 4 0 + 256 * buf.getD 5 0 + 8 →
        next_msg buf = (none, buf))) :=
  next_msg_ubx0_cases buf h

/-- Witness for C4: the 18-byte frame with declared payload length 10 —
17 bytes buffered yield no unit and leave the buffer; the full 18 bytes
yield exactly the one frame, emptying the buffer. -/
theorem take_ubx_framing_witness :
    next_msg [0xB5, 0x62] = (none, [0xB5, 0x62]) ∧
    next_msg [0xB5, 0x62, 1, 2, 10, 0, 9, 8, 7, 6, 5, 4, 3, 2, 1, 0, 77]
      = (none, [0xB5, 0x62, 1, 2, 10, 0, 9, 8, 7, 6, 5, 4, 3, 2, 1, 0, 77]) ∧
    next_msg [0xB5, 0x62, 1, 2, 10, 0, 9, 8, 7, 6, 5, 4, 3, 2, 1, 0, 77, 66]
      = (some (ParsedMsg.bin
          [0xB5, 0x62, 1, 2, 10, 0, 9, 8, 7, 6, 5, 4, 3, 2, 1, 0, 77, 66]), []) := by
  refine ⟨(take_ubx_framing [0xB5, 0x62] (by decide)).1 (by decide), ?_, ?_⟩
  · exact (((take_ubx_framing
      [0xB5, 0x62, 1, 2, 10, 0, 9, 8, 7, 6, 5, 4, 3, 2, 1, 0, 77]
      (by decide)).2 (by decide)).2 (by decide))
  · have h := (((take_ubx_framing
      [0xB5, 0x62, 1, 2, 10, 0, 9, 8, 7, 6, 5, 4, 3, 2, 1, 0, 77, 66]
      (by decide)).2 (by decide)).1 (by decide))
    simpa using h

/-- C5: every way a single detection/extraction call can report "not ready" —
no marker anywhere, `$` at offset 0 without a CRLF terminator, or the UBX
marker at offset 0 with too few buffered bytes — returns no unit and leaves
the receive buffer exactly unchanged. -/
theorem not_ready_buffer_unchanged (buf : List Nat) :
    ((findByteIdx 0x24 buf = none ∧ findPairIdx 0xB5 0x62 buf = none) →
      next_msg buf = (none, buf)) ∧
    ((findByteIdx 0x24 buf = some 0 ∧ findPairIdx 0x0D 0x0A buf = none) →
      next_msg buf = (none, buf)) ∧
    ((findPairIdx 0xB5 0x62 buf = some 0 ∧ buf.length < 6) →
      next_msg buf = (none, buf)) ∧
    ((findPairIdx 0xB5 0x62 buf = some 0 ∧ 6 ≤ buf.length ∧
        buf.length < buf.getD 4 0 + 256 * buf.getD 5 0 + 8) →
      next_msg buf = (none, buf)) := by
  refine ⟨?_, ?_, ?_, ?_⟩
  · rintro ⟨hn, hu⟩
    exact next_msg_no_marker hn hu
  · rintro ⟨hn, hc⟩
    rw [next_msg_nmea0 hn]
    unfold take_nmea
    rw [hc]
  · rintro ⟨hu, hlen⟩
    exact (next_msg_ubx0_cases buf hu).1 hlen
  · rintro ⟨hu, h6, hshort⟩
    exact ((next_msg_ubx0_cases buf hu).2 h6).2 hshort

/-- Witness for C5: a lone `$` has no CRLF yet. -/
theorem not_ready_buffer_unchanged_witness :
    next_msg [0x24] = (none, [0x24]) :=
  (not_ready_buffer_unchanged [0x24]).2.1 ⟨by decide, by decide⟩

/-- C6: when neither marker is at offset 0, a single detection step removes
exactly `min(nmea_offset, ubx_offset)` bytes when both markers occur at
positive offsets, and exactly the one marker's offset when only one occurs. -/
theorem skip_amount_correct (buf : List Nat) :
    (∀ n u, findByteIdx 0x24 buf = some n → findPairIdx 0xB5 0x62 buf = some u →
      0 < n → 0 < u →
      next_msg buf = (some (ParsedMsg.bin (buf.take (min n u))), buf.drop (min n u))) ∧
    (∀ n, findByteIdx 0x24 buf = some n → findPairIdx 0xB5 0x62 buf = none →
      0 < n →
      next_msg buf = (some (ParsedMsg.bin (buf.take n)), buf.drop n)) ∧
    (∀ u, findByteIdx 0x24 buf = none → findPairIdx 0xB5 0x62 buf = some u →
      0 < u →
      next_msg buf = (some (ParsedMsg.bin (buf.take u)), buf.drop u)) := by
  exact ⟨fun n u hn hu hn0 hu0 => next_msg_skip_both hn hu hn0 hu0,
    fun n hn hu hn0 => next_msg_skip_nmea hn hu hn0,
    fun u hn hu hu0 => next_msg_skip_ubx hn hu hu0⟩

/-- Witness for C6: noise, then `$` at offset 2 and the UBX marker at
offset 5 — exactly `min 2 5 = 2` bytes are removed. -/
theorem skip_amount_correct_witness :
    next_msg [7, 9, 0x24, 65, 66, 0xB5, 0x62]
      = (some (ParsedMsg.bin [7, 9]), [0x24, 65, 66, 0xB5, 0x62]) := by
  have h := (skip_amount_correct [7, 9, 0x24, 65, 66, 0xB5, 0x62]).1
    2 5 (by decide) (by decide) (by decide) (by decide)
  simpa using h

/-- C7: the pull-until-not-ready sequence is finite — every call that yields
a unit removes at least one byte, the number of yielded units is bounded by
the buffer length, and once drained `_next_msg` reports "not ready". -/
theorem get_msgs_finite (buf : List Nat) :
    (∀ m b, next_msg buf = (some m, b) → b.length < buf.length) ∧
    (get_msgs buf).1.length ≤ buf.length ∧
    (next_msg (get_msgs buf).2).1 = none := by
  refine ⟨fun m b h => next_msg_some_lt h, ?_, ?_⟩
  · exact get_msgs_fuel_count buf.length buf
  · exact get_msgs_fuel_complete buf.length buf (le_refl _)

/-- Witness for C7: draining the noise-then-sentence buffer yields two units
(at most five, the buffer length) and ends not ready. -/
theorem get_msgs_finite_witness :
    (get_msgs [0x58, 0x24, 0x41, 0x0D, 0x0A]).1.length
        ≤ ([0x58, 0x24, 0x41, 0x0D, 0x0A] : List Nat).length ∧
    ([0x24] : List Nat).length < ([0x58, 0x24] : List Nat).length :=
  ⟨(get_msgs_finite [0x58, 0x24, 0x41, 0x0D, 0x0A]).2.1,
   (get_msgs_finite [0x58, 0x24]).1 (ParsedMsg.bin [0x58]) [0x24] (by decide)⟩

/-- C8: `feed` only appends to the back of the buffer, and every call that
yields a unit removes a non-empty prefix: the new buffer is the matching
suffix and the unit is built from exactly the removed prefix bytes, so later
calls operate only on the remaining suffix. -/
theorem buffer_front_discipline (buf data : List Nat) :
    feed buf data = buf ++ data ∧
    (∀ m b, next_msg buf = (some m, b) →
      ∃ k, 0 < k ∧ k ≤ buf.length ∧ b = buf.drop k ∧
        (m = ParsedMsg.nmea (buf.take k) ∨ m = ParsedMsg.bin (buf.take k))) :=
  ⟨rfl, fun _ _ h => next_msg_some_inv h⟩

/-- Witness for C8: extracting from the noise buffer removes the 1-byte
prefix `[0x58]`. -/
theorem buffer_front_discipline_witness :
    ∃ k, 0 < k ∧ k ≤ ([0x58, 0x24] : List Nat).length ∧
      ([0x24] : List Nat) = ([0x58, 0x24] : List Nat).drop k ∧
      (ParsedMsg.bin [0x58] = ParsedMsg.nmea (([0x58, 0x24] : List Nat).take k) ∨
       ParsedMsg.bin [0x58] = ParsedMsg.bin (([0x58, 0x24] : List Nat).take k)) :=
  (buffer_front_discipline [0x58, 0x24] []).2
    (ParsedMsg.bin [0x58]) [0x24] (by decide)

/-- C1, counterexample: the buffer `noise ++ "$A\r\n"` (noise byte `0x58`).
The detection step removes the noise span and *returns it*, and `get_msgs`
yields it to the caller as a unit ahead of the NMEA sentence — the skipped
bytes are not consumed silently. -/
theorem skip_chunk_yielded_cex :
    (get_msgs [0x58, 0x24, 0x41, 0x0D, 0x0A]).1
        = [ParsedMsg.bin [0x58], ParsedMsg.nmea [0x24, 0x41, 0x0D, 0x0A]] ∧
    ParsedMsg.bin [0x58] ∈ (get_msgs [0x58, 0x24, 0x41, 0x0D, 0x0A]).1 := by
  refine ⟨by decide, ?_⟩
  have : (get_msgs [0x58, 0x24, 0x41, 0x0D, 0x0A]).1
      = [ParsedMsg.bin [0x58], ParsedMsg.nmea [0x24, 0x41, 0x0D, 0x0A]] := by decide
  rw [this]
  exact List.mem_cons_self _ _

/-- C1, amended: when the detection step skips noise (no marker at offset 0,
some marker at a positive offset), the skipped span is removed from the
buffer but handed back as a unit — `get_msgs` yields it to the caller as the
next message rather than consuming it silently. -/
theorem skip_chunk_yielded (buf : List Nat) :
    (∀ n u, findByteIdx 0x24 buf = some n → findPairIdx 0xB5 0x62 buf = some u →
      0 < n → 0 < u →
      (get_msgs buf).1.head? = some (ParsedMsg.bin (buf.take (min n u)))) ∧
    (∀ n, findByteIdx 0x24 buf = some n → findPairIdx 0xB5 0x62 buf = none →
      0 < n → (get_msgs buf).1.head? = some (ParsedMsg.bin (buf.take n))) ∧
    (∀ u, findByteIdx 0x24 buf = none → findPairIdx 0xB5 0x62 buf = some u →
      0 < u → (get_msgs buf).1.head? = some (ParsedMsg.bin (buf.take u))) :=
  ⟨fun _ _ hn hu hn0 hu0 => get_msgs_head (next_msg_skip_both hn hu hn0 hu0),
   fun _ hn hu hn0 => get_msgs_head (next_msg_skip_nmea hn hu hn0),
   fun _ hn hu hu0 => get_msgs_head (next_msg_skip_ubx hn hu hu0)⟩

/-- Witness for the amended C1: the first unit yielded from
`[0x58, $, A, CR, LF]` is the skipped noise span `[0x58]`. -/
theorem skip_chunk_yielded_witness :
    (get_msgs [0x58, 0x24, 0x41, 0x0D, 0x0A]).1.head?
      = some (ParsedMsg.bin (([0x58, 0x24, 0x41, 0x0D, 0x0A] : List Nat).take 1)) :=
  (skip_chunk_yielded [0x58, 0x24, 0x41, 0x0D, 0x0A]).2.1
    1 (by decide) (by decide) (by decide)

/-- C9: a well-formed sentence `s` — starting with `$`, with its only CRLF
at the very end — fed one byte at a time into a fresh parser yields zero
units (and keeps the partial buffer) at every step before the final LF byte,
and yields exactly the one decoded sentence, emptying the buffer, once the
last byte is fed. -/
theorem nmea_incremental (s : List Nat) (h1 : s.head? = some 0x24)
    (h2 : ∀ k, k < s.length → findPairIdx 0x0D 0x0A (s.take k) = none)
    (h3 : findPairIdx 0x0D 0x0A s = some (s.length - 2)) :
    (∀ k, k < s.length → get_msgs (s.take k) = ([], s.take k)) ∧
    get_msgs s = ([ParsedMsg.nmea s], []) := by
  have hs2 : 2 ≤ s.length := by
    have := findPairIdx_some_le h3
    omega
  rcases s with - | ⟨c, t⟩
  · simp at h1
  have hc : c = 0x24 := by
    simp only [List.head?_cons, Option.some.injEq] at h1
    exact h1
  subst hc
  constructor
  · intro k hk
    cases k with
    | zero =>
        simp only [List.take_zero]
        rfl
    | succ j =>
        have hmark : findByteIdx 0x24 ((0x24 :: t).take (j + 1)) = some 0 := by
          simp [findByteIdx]
        have hnm : next_msg ((0x24 :: t).take (j + 1))
            = take_nmea ((0x24 :: t).take (j + 1)) := next_msg_nmea0 hmark
        have hcrlf := h2 (j + 1) hk
        have hnone : (next_msg ((0x24 :: t).take (j + 1))).1 = none := by
          rw [hnm]
          unfold take_nmea
          rw [hcrlf]
        unfold get_msgs
        rw [get_msgs_fuel_none hnone]
  · have hmark : findByteIdx 0x24 (0x24 :: t) = some 0 := by
      simp [findByteIdx]
    have hstep : next_msg (0x24 :: t)
        = (some (ParsedMsg.nmea ((0x24 :: t).take ((0x24 :: t).length - 2 + 2))),
           (0x24 :: t).drop ((0x24 :: t).length - 2 + 2)) := by
      rw [next_msg_nmea0 hmark]
      unfold take_nmea
      rw [h3]
      simp [take_chunk]
    have hfull : (0x24 :: t).length - 2 + 2 = (0x24 :: t).length := by omega
    rw [hfull] at hstep
    rw [List.take_length, List.drop_length] at hstep
    exact get_msgs_single hstep (by rw [next_msg_nil])

/-- Witness for C9 at the four-byte sentence `$A\r\n`. -/
theorem nmea_incremental_witness :
    get_msgs [0x24, 0x41, 0x0D, 0x0A]
      = ([ParsedMsg.nmea [0x24, 0x41, 0x0D, 0x0A]], []) :=
  (nmea_incremental [0x24, 0x41, 0x0D, 0x0A]
    (by decide) (by decide) (by decide)).2

/-- C10: feeding `serialise m` (two-byte `msg_id`, payload at most 65535
bytes) into a fresh parser yields exactly one raw UBX frame — the first
`payload length + 8` bytes — and leaves the 2-byte trailing marker
`0x10 0x13` in the buffer: the inbound parser never consumes the full
outbound frame as one unit. -/
theorem serialise_reparse (m : UBXMessage)
    (h1 : m.msg_id.length = 2) (h2 : m.payload.length ≤ 65535) :
    get_msgs m.serialise
      = ([ParsedMsg.bin (m.serialise.take (m.payload.length + 8))],
         [0x10, 0x13]) := by
  rcases List.length_eq_two.mp h1 with ⟨a, b, hab⟩
  have hshape : m.serialise
      = 0xB5 :: 0x62 :: a :: b :: (m.payload.length % 256)
          :: (m.payload.length / 256)
          :: (m.payload
              ++ ubx_checksum (m.msg_id ++ packLE16 m.payload.length ++ m.payload)
              ++ [0x10, 0x13]) := by
    simp [UBXMessage.serialise, hab, packLE16]
  have hu0 : findPairIdx 0xB5 0x62 m.serialise = some 0 := by
    rw [hshape]
    simp [findPairIdx]
  have hlen : m.serialise.length = m.payload.length + 10 := by
    rw [hshape]
    simp only [List.length_cons, List.length_append, List.length_nil,
      ubx_checksum_length]
  have hg4 : m.serialise.getD 4 0 = m.payload.length % 256 := by
    rw [hshape]
    simp only [List.getD_cons_succ, List.getD_cons_zero]
  have hg5 : m.serialise.getD 5 0 = m.payload.length / 256 := by
    rw [hshape]
    simp only [List.getD_cons_succ, List.getD_cons_zero]
  have hdec : m.serialise.getD 4 0 + 256 * m.serialise.getD 5 0
      = m.payload.length := by
    rw [hg4, hg5]
    exact Nat.mod_add_div m.payload.length 256
  have hstep : next_msg m.serialise
      = (some (ParsedMsg.bin (m.serialise.take (m.payload.length + 8))),
         m.serialise.drop (m.payload.length + 8)) := by
    have h := ((next_msg_ubx0_cases m.serialise hu0).2 (by omega)).1 (by omega)
    rw [hdec] at h
    exact h
  have hdrop : m.serialise.drop (m.payload.length + 8) = [0x10, 0x13] := by
    have hfront : m.serialise
        = (0xB5 :: 0x62 :: a :: b :: (m.payload.length % 256)
            :: (m.payload.length / 256)
            :: (m.payload
                ++ ubx_checksum (m.msg_id ++ packLE16 m.payload.length ++ m.payload)))
          ++ [0x10, 0x13] := by
      rw [hshape]
      simp
    have hfl : (0xB5 :: 0x62 :: a :: b :: (m.payload.length % 256)
        :: (m.payload.length / 256)
        :: (m.payload
            ++ ubx_checksum (m.msg_id ++ packLE16 m.payload.length
              ++ m.payload))).length = m.payload.length + 8 := by
      simp only [List.length_cons, List.length_append, List.length_nil,
        ubx_checksum_length]
    rw [hfront, ← hfl, List.drop_left]
  rw [hdrop] at hstep
  exact get_msgs_single hstep (by decide)

/-- Witness for C10 at the spec's round-trip example message. -/
theorem serialise_reparse_witness :
    get_msgs (UBXMessage.serialise ⟨[0x06, 0x01], [0xAB, 0xCD]⟩)
      = ([ParsedMsg.bin
            ((UBXMessage.serialise ⟨[0x06, 0x01], [0xAB, 0xCD]⟩).take
              (([0xAB, 0xCD] : List Nat).length + 8))],
         [0x10, 0x13]) :=
  serialise_reparse ⟨[0x06, 0x01], [0xAB, 0xCD]⟩ (by decide) (by decide)
